import Mathlib

/-!
# Verification of the SMB log-search tool

Shallow embedding of the go-smb2 variant of the tool
(`findLogFilesSMB`, `searchStringInFileSMB`, `fetchFileSMB` and the
fan-out/fan-in coordination in `main`).  Go byte strings are modelled as
`List Nat` (each element a byte value), the remote store as a function
from a path to `Except` of the file's byte content, and the concurrent
coordinator as its order-canonical sequentialisation (every claim proved
below is about membership and counts, which are invariant under the
nondeterministic completion order of the scan goroutines).
-/

namespace SmbTool

/-! ## Logical line decomposition (bufio.Reader.ReadLine semantics)

`bufio.Reader.ReadLine` yields the content of a stream as lines: split at
each LF byte (10), a line terminated by LF has the LF removed and one CR
byte (13) immediately before the LF removed as well; a final unterminated
line is returned as-is (no CR stripping); a stream ending in LF produces
no trailing empty line.  `goLines` is the reference decomposition of a
whole stream into the logical lines `ReadLine` reconstructs. -/

/-- Remove a single trailing CR byte (13), as `ReadLine` does for the
`\r` of a `\r\n` terminator. -/
def dropCR (l : List Nat) : List Nat :=
  if l.getLast? = some 13 then l.dropLast else l

/-- Worker for `goLines`: `acc` holds the bytes of the current
(unfinished) line in reverse order. -/
def goLinesGo (acc : List Nat) : List Nat → List (List Nat)
  | [] => if acc.isEmpty then [] else [acc.reverse]
  | b :: bs =>
      if b = 10 then dropCR acc.reverse :: goLinesGo [] bs
      else goLinesGo (b :: acc) bs

/-- The logical lines of a byte stream, as produced by repeated
`bufio.Reader.ReadLine` calls (terminators stripped). -/
def goLines (s : List Nat) : List (List Nat) :=
  goLinesGo [] s

/-! ## UTF-16 decoding (golang.org/x/text/encoding/unicode)

Model of `unicode.UTF16(endianness, unicode.UseBOM).NewDecoder()` applied
through `transform.Bytes`: an initial byte-order mark of either
endianness overrides the configured endianness and is consumed; 16-bit
units are decoded to code points with surrogate pairs combined; an
unpaired surrogate or a trailing odd byte decodes to U+FFFD; the decoded
code points are re-encoded as UTF-8 bytes (Go strings are UTF-8). -/

/-- UTF-8 encoding of one code point (Go `utf8.EncodeRune`; surrogate
code points never reach this function because the UTF-16 decoder replaces
them with U+FFFD). -/
def utf8EncodeChar (c : Nat) : List Nat :=
  if c < 0x80 then [c]
  else if c < 0x800 then [0xC0 + c / 0x40, 0x80 + c % 0x40]
  else if c < 0x10000 then
    [0xE0 + c / 0x1000, 0x80 + c / 0x40 % 0x40, 0x80 + c % 0x40]
  else
    [0xF0 + c / 0x40000, 0x80 + c / 0x1000 % 0x40,
     0x80 + c / 0x40 % 0x40, 0x80 + c % 0x40]

/-- Decode UTF-16 bytes (big-endian when `be`, else little-endian) to
code points, with the replacement-character policy of the x/text
decoder. -/
def utf16CodePoints (be : Bool) : List Nat → List Nat
  | [] => []
  | [_] => [0xFFFD]
  | b0 :: b1 :: rest =>
      let x := if be then b0 * 256 + b1 else b1 * 256 + b0
      if 0xD800 ≤ x ∧ x < 0xDC00 then
        match hr : rest with
        | b2 :: b3 :: rest2 =>
            let y := if be then b2 * 256 + b3 else b3 * 256 + b2
            if 0xDC00 ≤ y ∧ y < 0xE000 then
              (0x10000 + (x - 0xD800) * 0x400 + (y - 0xDC00)) ::
                utf16CodePoints be rest2
            else 0xFFFD :: utf16CodePoints be rest
        | _ => 0xFFFD :: utf16CodePoints be rest
      else if 0xDC00 ≤ x ∧ x < 0xE000 then 0xFFFD :: utf16CodePoints be rest
      else x :: utf16CodePoints be rest
termination_by l => l.length
decreasing_by all_goals (simp_all; try omega)

/-- The full x/text UTF-16 decoder under `unicode.UseBOM`: honour (and
consume) a leading BOM of either endianness, fall back to the configured
default endianness `be` otherwise, and emit UTF-8 bytes. -/
def utf16DecodeBytes (be : Bool) (src : List Nat) : List Nat :=
  match src with
  | 0xFE :: 0xFF :: rest => (utf16CodePoints true rest).flatMap utf8EncodeChar
  | 0xFF :: 0xFE :: rest => (utf16CodePoints false rest).flatMap utf8EncodeChar
  | _ => (utf16CodePoints be src).flatMap utf8EncodeChar

/-- `transform.Bytes(decoder, line)` for the x/text UTF-16 decoder: the
decoder replaces malformed input with U+FFFD instead of failing, so the
result is always `ok`; the `Except` shape records that the call site in
the Go code receives a possible error. -/
def transformBytesUTF16 (be : Bool) (src : List Nat) : Except Unit (List Nat) :=
  .ok (utf16DecodeBytes be src)

/-- The per-line decode step of `searchStringInFileSMB`, parametrised by
the UTF-16 decoding primitive (`dec true` big-endian, `dec false`
little-endian) so that the decode-failure fallback branch is visible:
a line whose first two bytes are `FF FE` is decoded as UTF-16 LE, `FE FF`
as UTF-16 BE, anything else is left untransformed; a decoder error falls
back to the raw bytes. -/
def decodeLineWith (dec : Bool → List Nat → Except Unit (List Nat))
    (l : List Nat) : List Nat :=
  if 1 < l.length ∧ l[0]? = some 0xFF ∧ l[1]? = some 0xFE then
    match dec false l with
    | .ok d => d
    | .error _ => l
  else if 1 < l.length ∧ l[0]? = some 0xFE ∧ l[1]? = some 0xFF then
    match dec true l with
    | .ok d => d
    | .error _ => l
  else l

/-- The decode step with the concrete x/text decoder, exactly as in
`searchStringInFileSMB`. -/
def decodeLine (line : List Nat) : List Nat :=
  decodeLineWith transformBytesUTF16 line

/-! ## The buffered reader (`bufio.Reader` with capacity `n`)

`readLineStep` models one `ReadLine` call against the remaining stream
`s`: LF found inside the buffer window yields a complete line (with the
terminator and a preceding CR stripped, which is `dropCR` of the bytes
before the LF); a full window without LF yields a fragment flagged as
continuing (`more = true`), rewinding a trailing CR so that a `\r\n` pair
straddling the window boundary is still stripped; remaining bytes shorter
than the window form the final unterminated line; the empty stream is
end-of-stream. -/

/-- Index of the first LF byte, if any. -/
def firstNL : List Nat → Option Nat
  | [] => none
  | b :: bs => if b = 10 then some 0 else (firstNL bs).map (· + 1)

/-- One `bufio.Reader.ReadLine` call with buffer capacity `n` against
remaining stream `s`: `none` is end-of-stream, otherwise the returned
bytes, the `more` flag (the Go code's continuation flag, true when the
line overflowed the buffer), and the remaining stream. -/
def readLineStep (n : Nat) (s : List Nat) : Option (List Nat × Bool × List Nat) :=
  match firstNL (s.take n) with
  | some i => some (dropCR (s.take i), false, s.drop (i + 1))
  | none =>
      if n ≤ s.length then
        if (s.take n).getLast? = some 13 then
          some (s.take (n - 1), true, s.drop (n - 1))
        else
          some (s.take n, true, s.drop n)
      else if s.isEmpty then none
      else some (s, false, [])

/-- Iterate `readLineStep` with explicit fuel (each step with a capacity
of at least 2 consumes at least one byte, so `s.length + 1` units of fuel
are always enough; see `readChunks_unfold`). -/
def readChunksF : Nat → Nat → List Nat → List (List Nat × Bool)
  | 0, _, _ => []
  | fuel + 1, n, s =>
      match readLineStep n s with
      | none => []
      | some (l, m, rest) => (l, m) :: readChunksF fuel n rest

/-- The complete sequence of `ReadLine` results (bytes and continuation
flag) for a stream `s` read through a buffer of capacity `n`. -/
def readChunks (n : Nat) (s : List Nat) : List (List Nat × Bool) :=
  readChunksF (s.length + 1) n s

/-- Buffer capacity of `bufio.NewReader` (the default size used by
`searchStringInFileSMB`). -/
def bufSize : Nat := 4096

/-! ## The scan loop of `searchStringInFileSMB`

The Go loop reads one `ReadLine` result per logical line; while the
continuation flag is set it keeps reading and appending (`collectLine`),
an end-of-stream inside that inner loop just terminates the line.  Each
reassembled line is decoded (`decodeLine`) and tested for the needle with
`strings.Contains`; the first hit returns `true` immediately, end of
stream returns `false`.  `searchLoop` additionally counts the number of
logical lines examined, which makes the short-circuit observable. -/

/-- The inner `for isPrefix`-style loop: keep consuming `ReadLine`
results while the previous one was flagged as continuing; end-of-stream
terminates the line.  Returns the collected bytes and the unconsumed
results. -/
def collectLine : List (List Nat × Bool) → List Nat × List (List Nat × Bool)
  | [] => ([], [])
  | (b, true) :: rest =>
      let t := collectLine rest
      (b ++ t.1, t.2)
  | (b, false) :: rest => (b, rest)

theorem collectLine_length_le : ∀ cs : List (List Nat × Bool),
    (collectLine cs).2.length ≤ cs.length
  | [] => by simp [collectLine]
  | (b, true) :: rest => by
      simpa [collectLine] using Nat.le_succ_of_le (collectLine_length_le rest)
  | (b, false) :: rest => by simp [collectLine]

/-- The scan loop over the sequence of `ReadLine` results: reassemble
each logical line, decode it, test for the needle; a hit short-circuits
with `true`.  The second component counts the logical lines examined. -/
def searchLoop (needle : List Nat) : List (List Nat × Bool) → Bool × Nat
  | [] => (false, 0)
  | (b, true) :: rest =>
      let t := collectLine rest
      if decide (needle <:+: decodeLine (b ++ t.1)) then (true, 1)
      else
        let r := searchLoop needle t.2
        (r.1, r.2 + 1)
  | (b, false) :: rest =>
      if decide (needle <:+: decodeLine b) then (true, 1)
      else
        let r := searchLoop needle rest
        (r.1, r.2 + 1)
termination_by cs => cs.length
decreasing_by
  · have := collectLine_length_le rest
    simp; omega
  · simp

/-- Content-level scan with buffer capacity `n`: the boolean
`searchStringInFileSMB` computes for a file with byte content `c`. -/
def searchContentN (n : Nat) (c needle : List Nat) : Bool :=
  (searchLoop needle (readChunks n c)).1

/-- Number of logical lines the scan with buffer capacity `n` examines
before returning. -/
def linesExaminedN (n : Nat) (c needle : List Nat) : Nat :=
  (searchLoop needle (readChunks n c)).2

/-- The scan of a file's content as performed by `searchStringInFileSMB`
(default `bufio.NewReader` capacity). -/
def searchContent (c needle : List Nat) : Bool :=
  searchContentN bufSize c needle

/-! ## Path normalization and the remote operations

The remote store is a function from a (forward-slash) path to the file's
byte content or an open error (`Except Nat` with an abstract error
code).  `searchStringInFileSMB` and `fetchFileSMB` both normalize their
path argument with `strings.ReplaceAll(path, "\\", "/")` before calling
`Open`; `findLogFilesSMB` normalizes discovered paths the other way with
`strings.ReplaceAll(entryPath, "/", "\\")` for presentation.  A byte-wise
map is exact here because the separator bytes 0x2F and 0x5C never occur
inside a multi-byte UTF-8 sequence. -/

/-- `strings.ReplaceAll(path, "\\", "/")`: normalize to the store's
forward-slash convention. -/
def toStoreSep (p : List Nat) : List Nat :=
  p.map fun b => if b = 92 then 47 else b

/-- `strings.ReplaceAll(entryPath, "/", "\\")`: normalize to the
backslash convention used for presentation. -/
def toPresentSep (p : List Nat) : List Nat :=
  p.map fun b => if b = 47 then 92 else b

/-- `searchStringInFileSMB`: normalize the path, open the remote file
(propagating an open error), then run the line-by-line scan.  Reads from
the pure byte stream cannot fail, so a successfully opened file always
scans to `ok`. -/
def searchStringInFileSMB (fs : List Nat → Except Nat (List Nat))
    (filePath needle : List Nat) : Except Nat Bool :=
  match fs (toStoreSep filePath) with
  | .error e => .error e
  | .ok content => .ok (searchContent content needle)

/-! ## Discovery (`findLogFilesSMB`)

`iofs.WalkDir` visits entries; a walk error is logged and skipped (the
walk continues), a non-directory entry whose lowercased name ends in
".log" is appended after separator normalization. -/

/-- One entry visited by the directory walk: full path (store
convention), base name, and directory flag. -/
structure DirEntry where
  path : List Nat
  name : List Nat
  isDir : Bool
deriving DecidableEq

/-- One callback invocation of the walk: either a visited entry or a
walk error (error code), which the callback logs and skips. -/
inductive WalkEvent where
  | entry (d : DirEntry)
  | fault (e : Nat)
deriving DecidableEq

/-- `strings.ToLower` restricted to the ASCII range (the Go function is
Unicode-aware; on the ASCII bytes relevant to the ".log" suffix test the
mapping is exactly A–Z ↦ a–z, and non-ASCII bytes are continuation or
lead bytes ≥ 0x80 that the suffix test never matches). -/
def toLowerAscii (s : List Nat) : List Nat :=
  s.map fun b => if 65 ≤ b ∧ b ≤ 90 then b + 32 else b

/-- The bytes of ".log". -/
def logSuf : List Nat := [46, 108, 111, 103]

/-- The inclusion test of `findLogFilesSMB`:
`!d.IsDir() && strings.HasSuffix(strings.ToLower(d.Name()), ".log")`. -/
def logFileTest (d : DirEntry) : Bool :=
  !d.isDir && decide (logSuf <:+ toLowerAscii d.name)

/-- `findLogFilesSMB` over the sequence of walk callback invocations:
faults are skipped, qualifying entries contribute their path normalized
to backslashes. -/
def findLogFilesSMB (events : List WalkEvent) : List (List Nat) :=
  (events.filterMap fun ev =>
      match ev with
      | .entry d => if logFileTest d then some (toPresentSep d.path) else none
      | .fault _ => none)

/-! ## The search coordinator (phase 2 of `main`)

`main` dispatches one goroutine per candidate path, collects the paths
whose scan returned `true` over a channel, and prints the discovered
count (an `int32` accumulated with atomic adds of the per-root list
lengths, which totals the length of the concatenated candidate list
wrapped to 32-bit two's complement).  A scan error is logged and the
goroutine exits without sending, so an unreadable file is a non-match.
The channel delivers results in nondeterministic completion order; the
model fixes the candidate order as a canonical representative, and every
theorem below states only order-independent facts (membership, counts).
-/

/-- Go `int32(n)` for a natural `n`: two's-complement wrap. -/
def toInt32 (n : Nat) : Int :=
  if n % 2 ^ 32 < 2 ^ 31 then (n % 2 ^ 32 : Nat)
  else (n % 2 ^ 32 : Nat) - (2 ^ 32 : Int)

/-- The body of one search goroutine: an error is logged and the file
contributes no match, a successful scan contributes its boolean. -/
def scanVerdict (fs : List Nat → Except Nat (List Nat))
    (needle p : List Nat) : Bool :=
  match searchStringInFileSMB fs p needle with
  | .ok b => b
  | .error _ => false

/-- The aggregate result of the search phase. -/
structure SearchOutcome where
  total : Int
  matchSet : List (List Nat)
deriving DecidableEq

/-- Phase 2 of `main` over an already-discovered candidate list. -/
def coordinate (fs : List Nat → Except Nat (List Nat))
    (candidates : List (List Nat)) (needle : List Nat) : SearchOutcome :=
  { total := toInt32 candidates.length
    matchSet := candidates.filter (scanVerdict fs needle) }

/-! ## The fetcher (`fetchFileSMB` and the fetch step of `main`) -/

/-- `os.IsPathSeparator` on Windows: both slash and backslash. -/
def isSep (b : Nat) : Bool := b = 47 || b = 92

/-- `filepath.Base` (Windows separator convention, matching the
backslash-presented remote paths the program feeds it; volume-name
stripping is omitted because share-relative paths carry no drive
letter): empty path gives ".", trailing separators are dropped, the
suffix after the last separator remains, and an all-separator path
gives a single separator. -/
def filepathBase (p : List Nat) : List Nat :=
  if p = [] then [46]
  else
    let q := p.reverse.dropWhile isSep
    if q = [] then [92]
    else (q.takeWhile fun b => !isSep b).reverse

/-- `fetchFileSMB`: normalize the remote path, open it (an open error
aborts before any local file is touched), then create the local file and
stream the content into it.  The result pairs the returned value (bytes
copied, or the error) with the list of local files written, so that the
effect on the local filesystem is part of the model.  The local
`os.Create` and the copy from a pure byte stream cannot fail here. -/
def fetchFileSMB (fs : List Nat → Except Nat (List Nat))
    (remotePath localPath : List Nat) :
    Except Nat Nat × List (List Nat × List Nat) :=
  match fs (toStoreSep remotePath) with
  | .error e => (.error e, [])
  | .ok content => (.ok content.length, [(localPath, content)])

/-- The fetch step at the end of `main`: empty input skips the fetch
(`none`), otherwise `fetchFileSMB` runs with the local name
`filepath.Base(fileToFetch)`. -/
def mainFetchStep (fs : List Nat → Except Nat (List Nat))
    (fileToFetch : List Nat) :
    Option (Except Nat Nat × List (List Nat × List Nat)) :=
  if fileToFetch.isEmpty then none
  else some (fetchFileSMB fs fileToFetch (filepathBase fileToFetch))

/-! ## Reassembly correctness

The central fact behind the scanner claims: reading a stream through a
buffer of any capacity at least 2 and reassembling the continuation
fragments recovers exactly the logical lines `goLines`. -/

theorem dropCR_nil : dropCR [] = [] := rfl

theorem dropCR_append (x : List Nat) {l : List Nat} (h : l ≠ []) :
    dropCR (x ++ l) = x ++ dropCR l := by
  unfold dropCR
  rw [List.getLast?_append_of_ne_nil _ h]
  by_cases h13 : l.getLast? = some 13
  · simp [h13, List.dropLast_append_of_ne_nil x h]
  · simp [h13]

theorem dropCR_of_getLast?_ne (l : List Nat) (h : l.getLast? ≠ some 13) :
    dropCR l = l := by
  simp [dropCR, h]

theorem goLinesGo_append (t : List Nat) (ht : ∀ b ∈ t, b ≠ 10) :
    ∀ acc rest, goLinesGo acc (t ++ rest) = goLinesGo (t.reverse ++ acc) rest := by
  induction t with
  | nil => intro acc rest; simp
  | cons b bs ih =>
      intro acc rest
      have hb : b ≠ 10 := ht b (by simp)
      have hbs : ∀ x ∈ bs, x ≠ 10 := fun x hx => ht x (by simp [hx])
      have h1 : goLinesGo acc ((b :: bs) ++ rest) = goLinesGo (b :: acc) (bs ++ rest) := by
        simp [goLinesGo, hb]
      rw [h1, ih hbs (b :: acc) rest]
      simp

theorem goLinesGo_ne_nil (t acc : List Nat) (h : t ≠ [] ∨ acc ≠ []) :
    goLinesGo acc t ≠ [] := by
  induction t generalizing acc with
  | nil =>
      have : acc ≠ [] := by tauto
      simp [goLinesGo, this]
  | cons b bs ih =>
      by_cases hb : b = 10
      · simp [goLinesGo, hb]
      · simp only [goLinesGo, if_neg hb]
        exact ih _ (Or.inr (by simp))

theorem goLines_ne_nil {t : List Nat} (h : t ≠ []) : goLines t ≠ [] :=
  goLinesGo_ne_nil t [] (Or.inl h)

/-- The junction lemma: prepending line-fragment bytes `x` (no LF in
them) to a nonempty remainder `t` extends the first logical line of `t`,
provided the CR-strip cannot act across the junction (either `x` does
not end in CR or `t` does not start with LF — the two cases the rewind
in `readLineStep` guarantees). -/
theorem goLinesGo_junction :
    ∀ t x : List Nat, t ≠ [] →
      (x.getLast? ≠ some 13 ∨ t.head? ≠ some 10) →
      goLinesGo x.reverse t = (x ++ (goLines t).headI) :: (goLines t).tail := by
  intro t
  induction t with
  | nil => intro x hne _; exact absurd rfl hne
  | cons b t' ih =>
    intro x _ hcond
    cases t' with
    | nil =>
        by_cases hb : b = 10
        · subst hb
          have hx : x.getLast? ≠ some 13 := by
            rcases hcond with h | h
            · exact h
            · simp at h
          simp [goLinesGo, goLines, dropCR_of_getLast?_ne x hx, dropCR]
          exact fun h => absurd h hx
        · simp [goLinesGo, goLines, hb, List.isEmpty_iff]
    | cons c bs =>
        by_cases hb : b = 10
        · subst hb
          have hx : x.getLast? ≠ some 13 := by
            rcases hcond with h | h
            · exact h
            · simp at h
          simp only [goLinesGo, goLines, if_pos rfl,
            dropCR_of_getLast?_ne x hx, dropCR_nil, List.reverse_nil]
          simp [dropCR]
          exact fun h => absurd h hx
        · by_cases hcr : b = 13 ∧ c = 10
          · obtain ⟨hb13, hc10⟩ := hcr
            subst hb13; subst hc10
            have h1 : goLinesGo x.reverse (13 :: 10 :: bs) =
                dropCR (x ++ [13]) :: goLinesGo [] bs := by
              simp [goLinesGo]
            have h2 : dropCR (x ++ [13]) = x := by
              unfold dropCR
              simp
            have h3 : goLines (13 :: 10 :: bs) = [] :: goLinesGo [] bs := by
              simp [goLines, goLinesGo, dropCR]
            rw [h1, h2, h3]
            simp
          · -- b ≠ 10 and not (b = 13 followed by 10): push b into x
            have hstep : goLinesGo x.reverse (b :: c :: bs) =
                goLinesGo ((x ++ [b]).reverse) (c :: bs) := by
              simp [goLinesGo, hb]
            have hcond' : (x ++ [b]).getLast? ≠ some 13 ∨
                (c :: bs).head? ≠ some 10 := by
              by_cases hb13 : b = 13
              · right
                intro hc
                simp at hc
                exact hcr ⟨hb13, hc⟩
              · left
                simp [List.getLast?_append_of_ne_nil, hb13]
            have hcondb : ([b] : List Nat).getLast? ≠ some 13 ∨
                (c :: bs).head? ≠ some 10 := by
              rcases hcond' with h | h
              · left; simpa using (by simpa using h : b ≠ 13)
              · right; exact h
            have ih1 := ih (x ++ [b]) (by simp) hcond'
            have ih2 := ih [b] (by simp) hcondb
            have hgo : goLines (b :: c :: bs) =
                ([b] ++ (goLines (c :: bs)).headI) :: (goLines (c :: bs)).tail := by
              have : goLines (b :: c :: bs) = goLinesGo [b].reverse (c :: bs) := by
                simp [goLines, goLinesGo, hb]
              rw [this, ih2]
            rw [hstep, ih1, hgo]
            simp

theorem firstNL_none {t : List Nat} (h : firstNL t = none) : ∀ b ∈ t, b ≠ 10 := by
  induction t with
  | nil => simp
  | cons b bs ih =>
      by_cases hb : b = 10
      · simp [firstNL, hb] at h
      · simp only [firstNL, if_neg hb, Option.map_eq_none'] at h
        intro c hc
        rcases List.mem_cons.mp hc with rfl | hc
        · exact hb
        · exact ih h c hc

theorem firstNL_lt_length : ∀ {s : List Nat} {i : Nat}, firstNL s = some i →
    i < s.length := by
  intro s
  induction s with
  | nil => intro i h; simp [firstNL] at h
  | cons b bs ih =>
      intro i h
      by_cases hb : b = 10
      · simp [firstNL, hb] at h
        simp [← h]
      · simp only [firstNL, if_neg hb, Option.map_eq_some'] at h
        obtain ⟨j, hj, rfl⟩ := h
        have := ih hj
        simp
        omega

theorem firstNL_decomp : ∀ {s : List Nat} {i : Nat}, firstNL s = some i →
    (∀ b ∈ s.take i, b ≠ 10) ∧ s.drop i = 10 :: s.drop (i + 1) := by
  intro s
  induction s with
  | nil => intro i h; simp [firstNL] at h
  | cons b bs ih =>
      intro i h
      by_cases hb : b = 10
      · simp [firstNL, hb] at h
        subst h
        simp [hb]
      · simp only [firstNL, if_neg hb, Option.map_eq_some'] at h
        obtain ⟨j, hj, rfl⟩ := h
        obtain ⟨h1, h2⟩ := ih hj
        constructor
        · intro c hc
          rcases List.mem_cons.mp (by simpa using hc) with rfl | hc'
          · exact hb
          · exact h1 c hc'
        · simpa using h2

theorem firstNL_take_some : ∀ {s : List Nat} {n i : Nat},
    firstNL (s.take n) = some i → firstNL s = some i := by
  intro s
  induction s with
  | nil => intro n i h; simp [firstNL] at h
  | cons b bs ih =>
      intro n i h
      match n with
      | 0 => simp [firstNL] at h
      | m + 1 =>
          by_cases hb : b = 10
          · simpa [firstNL, hb] using h
          · simp only [List.take_succ_cons, firstNL, if_neg hb,
              Option.map_eq_some'] at h ⊢
            obtain ⟨j, hj, rfl⟩ := h
            exact ⟨j, ih hj, rfl⟩

/-- `readLineStep` reports end-of-stream only on the empty stream. -/
theorem readLineStep_none {n : Nat} {s : List Nat}
    (h : readLineStep n s = none) : s = [] := by
  unfold readLineStep at h
  cases hf : firstNL (s.take n) with
  | some i => simp [hf] at h
  | none =>
      simp only [hf] at h
      by_cases hn : n ≤ s.length
      · by_cases hcr : (s.take n).getLast? = some 13 <;> simp [hn, hcr] at h
      · by_cases he : s.isEmpty
        · exact List.isEmpty_iff.mp he
        · simp [hn, he] at h

/-- With a buffer capacity of at least 2, every successful `ReadLine`
call consumes at least one byte of the stream. -/
theorem readLineStep_consume {n : Nat} {s l : List Nat} {m : Bool}
    {r : List Nat} (hn : 2 ≤ n) (h : readLineStep n s = some (l, m, r)) :
    r.length < s.length := by
  unfold readLineStep at h
  cases hf : firstNL (s.take n) with
  | some i =>
      simp only [hf, Option.some.injEq, Prod.mk.injEq] at h
      obtain ⟨-, -, hr⟩ := h
      have hi : i < (s.take n).length := firstNL_lt_length hf
      subst hr
      simp at hi ⊢
      omega
  | none =>
      simp only [hf] at h
      by_cases hlen : n ≤ s.length
      · by_cases hcr : (s.take n).getLast? = some 13
        · simp only [if_pos hlen, if_pos hcr, Option.some.injEq,
            Prod.mk.injEq] at h
          obtain ⟨-, -, hr⟩ := h
          subst hr
          simp
          omega
        · simp only [if_pos hlen, if_neg hcr, Option.some.injEq,
            Prod.mk.injEq] at h
          obtain ⟨-, -, hr⟩ := h
          subst hr
          simp
          omega
      · by_cases he : s.isEmpty
        · simp [hlen, he] at h
        · simp only [if_neg hlen, if_neg he, Option.some.injEq,
            Prod.mk.injEq] at h
          obtain ⟨-, -, hr⟩ := h
          subst hr
          simp [List.isEmpty_iff] at he
          simpa using List.length_pos.mpr he

/-- Fuel adequacy: any fuel beyond the stream length computes the full
chunk sequence. -/
theorem readChunksF_stable {n : Nat} (hn : 2 ≤ n) :
    ∀ f : Nat, ∀ s : List Nat, s.length < f →
      readChunksF f n s = readChunks n s := by
  intro f
  induction f using Nat.strong_induction_on with
  | _ f ih =>
    match f with
    | 0 => intro s h; omega
    | f' + 1 =>
        intro s hs
        show readChunksF (f' + 1) n s = readChunksF (s.length + 1) n s
        cases hstep : readLineStep n s with
        | none => simp [readChunksF, hstep]
        | some t =>
            obtain ⟨l, m, r⟩ := t
            have hr : r.length < s.length := readLineStep_consume hn hstep
            simp only [readChunksF, hstep]
            have h1 : readChunksF f' n r = readChunks n r :=
              ih f' (by omega) r (by omega)
            have h2 : readChunksF s.length n r = readChunks n r :=
              ih s.length (by omega) r (by omega)
            rw [h1, h2]

/-- One-step unfolding of the chunk sequence. -/
theorem readChunks_unfold {n : Nat} (hn : 2 ≤ n) (s : List Nat) :
    readChunks n s =
      match readLineStep n s with
      | none => []
      | some (l, m, r) => (l, m) :: readChunks n r := by
  show readChunksF (s.length + 1) n s = _
  cases hstep : readLineStep n s with
  | none => simp [readChunksF, hstep]
  | some t =>
      obtain ⟨l, m, r⟩ := t
      have hr : r.length < s.length := readLineStep_consume hn hstep
      simp only [readChunksF, hstep]
      rw [readChunksF_stable hn s.length r (by omega)]

/-- The logical lines encoded by a chunk sequence: a fragment flagged as
continuing is prepended to the following line. -/
def reassemble : List (List Nat × Bool) → List (List Nat)
  | [] => []
  | (b, false) :: rest => b :: reassemble rest
  | (b, true) :: rest =>
      match reassemble rest with
      | [] => [b]
      | l :: ls => (b ++ l) :: ls

/-- The scan loop expressed over already-assembled logical lines. -/
def linesSearch (needle : List Nat) : List (List Nat) → Bool × Nat
  | [] => (false, 0)
  | l :: ls =>
      if decide (needle <:+: decodeLine l) then (true, 1)
      else
        let r := linesSearch needle ls
        (r.1, r.2 + 1)

theorem reassemble_cons_true (b : List Nat) (cs : List (List Nat × Bool)) :
    reassemble ((b, true) :: cs) =
      (b ++ (collectLine cs).1) :: reassemble (collectLine cs).2 := by
  induction cs generalizing b with
  | nil => simp [reassemble, collectLine]
  | cons c rest ih =>
      obtain ⟨cb, cm⟩ := c
      cases cm
      · simp [reassemble, collectLine]
      · have h1 : reassemble ((b, true) :: (cb, true) :: rest) =
            match reassemble ((cb, true) :: rest) with
            | [] => [b]
            | l :: ls => (b ++ l) :: ls := rfl
        rw [h1, ih cb]
        simp [collectLine]

/-- The scan loop over chunks agrees with the scan loop over the
assembled logical lines. -/
theorem searchLoop_eq_linesSearch (needle : List Nat) :
    ∀ cs : List (List Nat × Bool),
      searchLoop needle cs = linesSearch needle (reassemble cs) := by
  suffices h : ∀ (len : Nat) (cs : List (List Nat × Bool)), cs.length = len →
      searchLoop needle cs = linesSearch needle (reassemble cs) by
    intro cs
    exact h cs.length cs rfl
  intro len
  induction len using Nat.strong_induction_on with
  | _ len ih =>
    intro cs hl
    match cs with
    | [] => simp [searchLoop, reassemble, linesSearch]
    | (b, false) :: rest =>
        have h1 : reassemble ((b, false) :: rest) = b :: reassemble rest := rfl
        rw [h1]
        simp only [searchLoop, linesSearch]
        rw [ih rest.length (by subst hl; simp) rest rfl]
    | (b, true) :: rest =>
        rw [reassemble_cons_true]
        have hle := collectLine_length_le rest
        simp only [searchLoop, linesSearch]
        rw [ih (collectLine rest).2.length
          (by subst hl; simp; omega) (collectLine rest).2 rfl]

theorem readChunks_nil {n : Nat} (hn : 2 ≤ n) :
    readChunks n ([] : List Nat) = [] := by
  rw [readChunks_unfold hn]
  have hn0 : ¬n = 0 := by omega
  simp [readLineStep, firstNL, hn0]

theorem goLines_no_nl {s : List Nat} (hne : s ≠ [])
    (hfree : ∀ b ∈ s, b ≠ 10) : goLines s = [s] := by
  rw [goLines, ← List.append_nil s, goLinesGo_append s hfree [] []]
  simp [goLinesGo, hne]

/-- Reassembling the chunk sequence of a buffered read (capacity at
least 2) recovers exactly the logical lines of the stream. -/
theorem reassemble_readChunks {n : Nat} (hn : 2 ≤ n) :
    ∀ s : List Nat, reassemble (readChunks n s) = goLines s := by
  suffices h : ∀ (len : Nat) (s : List Nat), s.length = len →
      reassemble (readChunks n s) = goLines s by
    intro s
    exact h s.length s rfl
  intro len
  induction len using Nat.strong_induction_on with
  | _ len ih =>
    intro s hl
    subst hl
    rw [readChunks_unfold hn s]
    cases hstep : readLineStep n s with
    | none =>
        rw [readLineStep_none hstep]
        simp [reassemble, goLines, goLinesGo]
    | some t =>
        obtain ⟨l, m, r⟩ := t
        have hr : r.length < s.length := readLineStep_consume hn hstep
        have ihr : reassemble (readChunks n r) = goLines r :=
          ih r.length hr r rfl
        unfold readLineStep at hstep
        cases hf : firstNL (s.take n) with
        | some i =>
            simp only [hf, Option.some.injEq, Prod.mk.injEq] at hstep
            obtain ⟨hl1, hm, hr1⟩ := hstep
            subst hl1; subst hr1
            cases hm
            have hi : i < (s.take n).length := firstNL_lt_length hf
            have hfs : firstNL s = some i := firstNL_take_some hf
            obtain ⟨hfree, hdrop⟩ := firstNL_decomp hfs
            have hsplit : s = s.take i ++ 10 :: s.drop (i + 1) := by
              conv_lhs => rw [← List.take_append_drop i s, hdrop]
            have hgl : goLines s = dropCR (s.take i) :: goLines (s.drop (i + 1)) := by
              conv_lhs => rw [goLines, hsplit]
              rw [goLinesGo_append (s.take i) hfree [] (10 :: s.drop (i + 1))]
              simp [goLinesGo, goLines]
            rw [hgl]
            have h2 : reassemble ((dropCR (s.take i), false) :: readChunks n (s.drop (i + 1))) =
                dropCR (s.take i) :: reassemble (readChunks n (s.drop (i + 1))) := rfl
            rw [h2, ihr]
        | none =>
            simp only [hf] at hstep
            have hfree : ∀ b ∈ s.take n, b ≠ 10 := firstNL_none hf
            by_cases hlen : n ≤ s.length
            · by_cases hcr : (s.take n).getLast? = some 13
              · -- rewind case: fragment is s.take (n-1), rest starts with the CR
                simp only [if_pos hlen, if_pos hcr, Option.some.injEq,
                  Prod.mk.injEq] at hstep
                obtain ⟨hl1, hm, hr1⟩ := hstep
                subst hl1; subst hr1
                cases hm
                have hf1 : ∀ b ∈ s.take (n - 1), b ≠ 10 := by
                  intro b hb
                  apply hfree
                  have hmin : min (n - 1) n = n - 1 := by omega
                  have heq : s.take (n - 1) = (s.take n).take (n - 1) := by
                    rw [List.take_take, hmin]
                  rw [heq] at hb
                  exact List.take_subset _ _ hb
                have hrne : s.drop (n - 1) ≠ [] := by
                  rw [ne_eq, List.drop_eq_nil_iff]
                  omega
                have hlen' : (s.take n).length = n := by
                  simp
                  omega
                have hget : s[n - 1]? = some 13 := by
                  have h13 := hcr
                  rw [List.getLast?_eq_getElem?, hlen'] at h13
                  rwa [List.getElem?_take_of_lt (by omega : n - 1 < n)] at h13
                have hhead : (s.drop (n - 1)).head? = some 13 := by
                  rw [List.head?_drop]
                  exact hget
                have hcond : (s.take (n - 1)).getLast? ≠ some 13 ∨
                    (s.drop (n - 1)).head? ≠ some 10 := by
                  right
                  rw [hhead]
                  simp
                have hjunc := goLinesGo_junction (s.drop (n - 1))
                  (s.take (n - 1)) hrne hcond
                have hgl : goLines s =
                    (s.take (n - 1) ++ (goLines (s.drop (n - 1))).headI) ::
                      (goLines (s.drop (n - 1))).tail := by
                  conv_lhs => rw [goLines, ← List.take_append_drop (n - 1) s]
                  rw [goLinesGo_append (s.take (n - 1)) hf1 [] (s.drop (n - 1)),
                    List.append_nil]
                  exact hjunc
                rw [hgl]
                obtain ⟨gl0, glrest, hglr⟩ :=
                  List.exists_cons_of_ne_nil (goLines_ne_nil hrne)
                have hhd : reassemble ((s.take (n - 1), true) ::
                      readChunks n (s.drop (n - 1))) =
                    match reassemble (readChunks n (s.drop (n - 1))) with
                    | [] => [s.take (n - 1)]
                    | l :: ls => (s.take (n - 1) ++ l) :: ls := rfl
                rw [hhd, ihr, hglr]
                simp
              · -- no rewind: the full window is the fragment
                simp only [if_pos hlen, if_neg hcr, Option.some.injEq,
                  Prod.mk.injEq] at hstep
                obtain ⟨hl1, hm, hr1⟩ := hstep
                subst hl1; subst hr1
                cases hm
                by_cases hrest : s.drop n = []
                · -- the stream is exactly one full window
                  have hslen : s.length ≤ n := List.drop_eq_nil_iff.mp hrest
                  have htake : s.take n = s := List.take_of_length_le hslen
                  rw [hrest, htake]
                  show reassemble ((s, true) :: readChunks n []) = goLines s
                  rw [readChunks_nil hn]
                  have hne : s ≠ [] := by
                    intro hcon
                    rw [hcon] at hlen
                    simp at hlen
                    omega
                  have hfree' : ∀ b ∈ s, b ≠ 10 := by
                    intro b hb
                    apply hfree
                    rwa [htake]
                  rw [goLines_no_nl hne hfree']
                  rfl
                · have hcond : (s.take n).getLast? ≠ some 13 ∨
                      (s.drop n).head? ≠ some 10 := Or.inl hcr
                  have hjunc := goLinesGo_junction (s.drop n) (s.take n)
                    hrest hcond
                  have hgl : goLines s =
                      (s.take n ++ (goLines (s.drop n)).headI) ::
                        (goLines (s.drop n)).tail := by
                    conv_lhs => rw [goLines, ← List.take_append_drop n s]
                    rw [goLinesGo_append (s.take n) hfree [] (s.drop n),
                      List.append_nil]
                    exact hjunc
                  rw [hgl]
                  obtain ⟨gl0, glrest, hglr⟩ :=
                    List.exists_cons_of_ne_nil (goLines_ne_nil hrest)
                  have hhd : reassemble ((s.take n, true) ::
                        readChunks n (s.drop n)) =
                      match reassemble (readChunks n (s.drop n)) with
                      | [] => [s.take n]
                      | l :: ls => (s.take n ++ l) :: ls := rfl
                  rw [hhd, ihr, hglr]
                  simp
            · -- final unterminated line
              simp only [if_neg hlen] at hstep
              by_cases he : s.isEmpty
              · simp [he] at hstep
              · simp only [if_neg he, Option.some.injEq, Prod.mk.injEq] at hstep
                obtain ⟨hl1, hm, hr1⟩ := hstep
                subst hl1; subst hr1
                cases hm
                have hne : s ≠ [] := by simpa [List.isEmpty_iff] using he
                have hfree' : ∀ b ∈ s, b ≠ 10 := by
                  intro b hb
                  refine hfree b ?_
                  rwa [List.take_of_length_le (by omega)]
                rw [goLines_no_nl hne hfree']
                show reassemble ((s, false) :: readChunks n []) = [s]
                rw [readChunks_nil hn]
                rfl

/-- The needle test the scan applies to one assembled line. -/
def lineHit (needle l : List Nat) : Bool :=
  decide (needle <:+: decodeLine l)

theorem linesSearch_fst (needle : List Nat) :
    ∀ ls : List (List Nat), (linesSearch needle ls).1 = ls.any (lineHit needle) := by
  intro ls
  induction ls with
  | nil => simp [linesSearch]
  | cons l ls ih =>
      by_cases hl : lineHit needle l
      · simp only [lineHit] at hl
        simp [linesSearch, hl, lineHit]
      · simp only [lineHit] at hl
        simp only [linesSearch, hl, if_false, List.any_cons]
        rw [ih]
        simp [lineHit, hl]

theorem linesSearch_snd (needle : List Nat) :
    ∀ ls : List (List Nat),
      (linesSearch needle ls).2 =
        if ls.any (lineHit needle) then ls.findIdx (lineHit needle) + 1
        else ls.length := by
  intro ls
  induction ls with
  | nil => simp [linesSearch]
  | cons l ls ih =>
      by_cases hl : lineHit needle l
      · simp only [lineHit] at hl
        simp [linesSearch, hl, lineHit, List.findIdx_cons]
      · simp only [lineHit] at hl
        simp only [linesSearch, hl, if_false, List.any_cons, List.findIdx_cons]
        rw [ih]
        by_cases ha : ls.any (lineHit needle) <;>
          simp [lineHit, hl, ha]

/-- The scan of a stream through any buffer of capacity at least 2
equals the substring test over the fully reassembled logical lines. -/
theorem searchContentN_eq {n : Nat} (hn : 2 ≤ n) (c needle : List Nat) :
    searchContentN n c needle = (goLines c).any (lineHit needle) := by
  unfold searchContentN
  rw [searchLoop_eq_linesSearch, reassemble_readChunks hn, linesSearch_fst]

theorem linesExaminedN_eq {n : Nat} (hn : 2 ≤ n) (c needle : List Nat) :
    linesExaminedN n c needle =
      if (goLines c).any (lineHit needle) then
        (goLines c).findIdx (lineHit needle) + 1
      else (goLines c).length := by
  unfold linesExaminedN
  rw [searchLoop_eq_linesSearch, reassemble_readChunks hn, linesSearch_snd]

theorem bufSize_ge_two : 2 ≤ bufSize := by decide

/-! ## Claim theorems -/

/-- C4: for every buffer capacity (the reference uses 4096; any capacity
of at least 2 behaves identically), a logical line longer than the
buffer is reassembled by repeated reads, and the scan result equals the
substring test over the complete reassembled lines — in particular a
line many times the buffer size with the needle only in its final byte
is still matched. -/
theorem C4_long_line_reassembly {n : Nat} (hn : 2 ≤ n) (c needle : List Nat) :
    searchContentN n c needle = (goLines c).any (lineHit needle) :=
  searchContentN_eq hn c needle

/-- A 30-byte single-line stream: ten times the witness buffer capacity
of 3, with the needle byte 98 only in the final position. -/
def longLine : List Nat := List.replicate 29 97 ++ [98]

/-- Witness for C4 at buffer capacity 3 and a line ten times the buffer
size whose needle occurs only in its last byte. -/
theorem C4_long_line_reassembly_witness :
    2 ≤ 3 ∧ searchContentN 3 longLine [98] = true := by
  refine ⟨by decide, ?_⟩
  rw [C4_long_line_reassembly (by decide) longLine [98]]
  decide

/-- C8: a successfully opened file always scans to a result (`ok`),
never an error; the first line containing the needle short-circuits the
scan (the number of lines examined is the index of the first matching
line plus one, so no later line is read); reaching end-of-stream without
a match yields `false` after examining every line. -/
theorem C8_short_circuit_eof :
    (∀ fs : List Nat → Except Nat (List Nat), ∀ p s c : List Nat,
        fs (toStoreSep p) = .ok c →
        searchStringInFileSMB fs p s = .ok (searchContent c s)) ∧
    (∀ c s : List Nat, (goLines c).any (lineHit s) = true →
        searchContent c s = true ∧
        linesExaminedN bufSize c s = (goLines c).findIdx (lineHit s) + 1) ∧
    (∀ c s : List Nat, (goLines c).any (lineHit s) = false →
        searchContent c s = false ∧
        linesExaminedN bufSize c s = (goLines c).length) := by
  refine ⟨?_, ?_, ?_⟩
  · intro fs p s c h
    simp [searchStringInFileSMB, h]
  · intro c s h
    refine ⟨?_, ?_⟩
    · rw [searchContent, searchContentN_eq bufSize_ge_two, h]
    · rw [linesExaminedN_eq bufSize_ge_two, if_pos h]
  · intro c s h
    refine ⟨?_, ?_⟩
    · rw [searchContent, searchContentN_eq bufSize_ge_two, h]
    · rw [linesExaminedN_eq bufSize_ge_two, h]
      simp

/-- Witness for C8: a three-line file whose second line contains the
needle scans to `true` after examining exactly two lines; a file without
the needle scans to `false` after examining all its lines. -/
theorem C8_short_circuit_eof_witness :
    (searchStringInFileSMB (fun _ => .ok [104, 105, 10]) [97] [105] =
        .ok (searchContent [104, 105, 10] [105])) ∧
    (searchContent [97, 10, 98, 10, 99, 10] [98] = true ∧
      linesExaminedN bufSize [97, 10, 98, 10, 99, 10] [98] =
        (goLines [97, 10, 98, 10, 99, 10]).findIdx (lineHit [98]) + 1) ∧
    (searchContent [97, 10, 98, 10] [122] = false ∧
      linesExaminedN bufSize [97, 10, 98, 10] [122] =
        (goLines [97, 10, 98, 10]).length) :=
  ⟨C8_short_circuit_eof.1 _ [97] [105] [104, 105, 10] rfl,
   C8_short_circuit_eof.2.1 [97, 10, 98, 10, 99, 10] [98] (by decide),
   C8_short_circuit_eof.2.2 [97, 10, 98, 10] [122] (by decide)⟩

/-- C10: the empty needle is contained in every decoded line, so the
scan returns `true` exactly when the file yields at least one logical
line, and a file yields no logical line exactly when it is empty. -/
theorem C10_empty_needle :
    (∀ c : List Nat, searchContent c [] = !(goLines c).isEmpty) ∧
    (∀ c : List Nat, (goLines c).isEmpty = c.isEmpty) := by
  constructor
  · intro c
    rw [searchContent, searchContentN_eq bufSize_ge_two]
    have hall : ∀ l, lineHit [] l = true := by
      intro l
      simp [lineHit, List.nil_infix]
    cases hgl : goLines c with
    | nil => simp
    | cons l ls => simp [hall]
  · intro c
    cases c with
    | nil => rfl
    | cons b bs =>
        have h1 : goLines (b :: bs) ≠ [] := goLines_ne_nil (by simp)
        simp [List.isEmpty_iff, h1]

/-- C2: per reconstructed line, a first-two-bytes BOM of `FF FE` selects
the UTF-16 little-endian decoder, `FE FF` the big-endian decoder, any
other prefix (including lines shorter than two bytes) leaves the bytes
untransformed; and a decoder failure falls back to the raw bytes rather
than failing the scan. -/
theorem C2_encoding_dispatch :
    (∀ rest : List Nat, decodeLine (0xFF :: 0xFE :: rest) =
        utf16DecodeBytes false (0xFF :: 0xFE :: rest)) ∧
    (∀ rest : List Nat, decodeLine (0xFE :: 0xFF :: rest) =
        utf16DecodeBytes true (0xFE :: 0xFF :: rest)) ∧
    (∀ l : List Nat, l.take 2 ≠ [0xFF, 0xFE] → l.take 2 ≠ [0xFE, 0xFF] →
        decodeLine l = l) ∧
    (∀ dec : Bool → List Nat → Except Unit (List Nat), ∀ l : List Nat,
        (∀ b : Bool, dec b l = .error ()) → decodeLineWith dec l = l) := by
  refine ⟨?_, ?_, ?_, ?_⟩
  · intro rest
    have hlen : 1 < (0xFF :: 0xFE :: rest : List Nat).length := by
      simp
    simp [decodeLine, decodeLineWith, transformBytesUTF16, hlen]
  · intro rest
    have hlen : 1 < (0xFE :: 0xFF :: rest : List Nat).length := by
      simp
    simp [decodeLine, decodeLineWith, transformBytesUTF16, hlen]
  · intro l h1 h2
    cases l with
    | nil => rfl
    | cons a t =>
        cases t with
        | nil => rfl
        | cons b rest =>
            have ha1 : ¬(a = 0xFF ∧ b = 0xFE) := by
              rintro ⟨rfl, rfl⟩
              exact h1 (by simp)
            have ha2 : ¬(a = 0xFE ∧ b = 0xFF) := by
              rintro ⟨rfl, rfl⟩
              exact h2 (by simp)
            simp [decodeLine, decodeLineWith, ha1, ha2]
  · intro dec l h
    unfold decodeLineWith
    split
    · rw [h false]
    · split
      · rw [h true]
      · rfl

/-- Witness for C2: a UTF-16LE line with BOM, a UTF-16BE line with BOM,
a plain two-byte line left untouched, and the raw-byte fallback under a
decoder that always fails. -/
theorem C2_encoding_dispatch_witness :
    decodeLine [0xFF, 0xFE, 72, 0] = utf16DecodeBytes false [0xFF, 0xFE, 72, 0] ∧
    decodeLine [0xFE, 0xFF, 0, 72] = utf16DecodeBytes true [0xFE, 0xFF, 0, 72] ∧
    decodeLine [72, 105] = [72, 105] ∧
    decodeLineWith (fun _ _ => .error ()) [0xFF, 0xFE, 72, 0] =
      [0xFF, 0xFE, 72, 0] :=
  ⟨C2_encoding_dispatch.1 [72, 0],
   C2_encoding_dispatch.2.1 [0, 72],
   C2_encoding_dispatch.2.2.1 [72, 105] (by decide) (by decide),
   C2_encoding_dispatch.2.2.2 (fun _ _ => .error ()) [0xFF, 0xFE, 72, 0]
     (fun _ => rfl)⟩

theorem count_one_of_nodup {α : Type} [BEq α] [LawfulBEq α] {l : List α}
    {a : α} (hnd : l.Nodup) (ha : a ∈ l) : l.count a = 1 := by
  induction l with
  | nil => simp at ha
  | cons x xs ih =>
      have hx : x ∉ xs := (List.nodup_cons.mp hnd).1
      have hnd' : xs.Nodup := (List.nodup_cons.mp hnd).2
      rcases List.mem_cons.mp ha with rfl | hmem
      · rw [List.count_cons_self, List.count_eq_zero.mpr hx]
      · have hax : a ≠ x := fun h => hx (h ▸ hmem)
        rw [List.count_cons_of_ne hax, ih hnd' hmem]

theorem searchContent_eq_true (c needle : List Nat) :
    searchContent c needle = true ↔
      ∃ l ∈ goLines c, needle <:+: decodeLine l := by
  rw [searchContent, searchContentN_eq bufSize_ge_two, List.any_eq_true]
  simp [lineHit]

theorem scanVerdict_eq_true (fs : List Nat → Except Nat (List Nat))
    (needle p : List Nat) :
    scanVerdict fs needle p = true ↔
      ∃ c, fs (toStoreSep p) = .ok c ∧ searchContent c needle = true := by
  unfold scanVerdict searchStringInFileSMB
  cases hfs : fs (toStoreSep p) with
  | error e => simp
  | ok c => simp

/-- C1: the coordinator's match set is a subset of the candidate set, a
candidate is a member exactly when its (opened) content has a logical
line whose decoded form contains the needle as a substring, and every
true positive appears exactly once. -/
theorem C1_matchset_exact (fs : List Nat → Except Nat (List Nat))
    (candidates : List (List Nat)) (needle : List Nat)
    (hnd : candidates.Nodup) :
    ((coordinate fs candidates needle).matchSet ⊆ candidates) ∧
    (∀ p ∈ candidates,
        (p ∈ (coordinate fs candidates needle).matchSet ↔
          ∃ c, fs (toStoreSep p) = .ok c ∧
            ∃ l ∈ goLines c, needle <:+: decodeLine l)) ∧
    (∀ p ∈ (coordinate fs candidates needle).matchSet,
        (coordinate fs candidates needle).matchSet.count p = 1) := by
  have hset : (coordinate fs candidates needle).matchSet =
      candidates.filter (scanVerdict fs needle) := rfl
  have hndm : (coordinate fs candidates needle).matchSet.Nodup := by
    rw [hset]
    exact hnd.filter _
  refine ⟨?_, ?_, ?_⟩
  · rw [hset]
    intro x hx
    exact (List.mem_filter.mp hx).1
  · intro p hp
    rw [hset, List.mem_filter]
    rw [scanVerdict_eq_true]
    constructor
    · rintro ⟨-, c, hc, hs⟩
      exact ⟨c, hc, (searchContent_eq_true c needle).mp hs⟩
    · rintro ⟨c, hc, hs⟩
      exact ⟨hp, c, hc, (searchContent_eq_true c needle).mpr hs⟩
  · intro p hp
    exact count_one_of_nodup hndm hp

/-- Witness candidate store for the coordinator claims: paths `"1"` and
`"4"` hold content containing the needle byte `104`, path `"2"` holds
content without it, path `"3"` is unreadable, path `"5"` is empty. -/
def wStore : List Nat → Except Nat (List Nat) := fun p =>
  if p = [49] then .ok [104, 105, 10]
  else if p = [50] then .ok [120, 10]
  else if p = [51] then .error 7
  else if p = [52] then .ok [107, 104]
  else if p = [53] then .ok []
  else .error 0

/-- The five candidate paths used by the coordinator witnesses. -/
def wCands : List (List Nat) := [[49], [50], [51], [52], [53]]

/-- Witness for C1 on the concrete five-candidate store: membership of
the match set is decided exactly by content, and the matching path
`"1"` appears exactly once. -/
theorem C1_matchset_exact_witness :
    ((coordinate wStore wCands [104]).matchSet ⊆ wCands) ∧
    ([49] ∈ (coordinate wStore wCands [104]).matchSet ↔
      ∃ c, wStore (toStoreSep [49]) = .ok c ∧
        ∃ l ∈ goLines c, [104] <:+: decodeLine l) ∧
    (coordinate wStore wCands [104]).matchSet.count [49] = 1 := by
  have h := C1_matchset_exact wStore wCands [104] (by decide)
  refine ⟨h.1, h.2.1 [49] (by decide), h.2.2 [49] ?_⟩
  have hmem := (h.2.1 [49] (by decide)).mpr
    ⟨[104, 105, 10], rfl, [104, 105], by decide, by decide⟩
  exact hmem

/-- C5: a scan failure is recorded as a non-match without aborting the
coordinator: with five candidates of which one is unreadable, the
reported total is still five and membership of the match set is decided
by each scan alone. -/
theorem C5_partial_failure (fs : List Nat → Except Nat (List Nat))
    (candidates : List (List Nat)) (needle bad : List Nat) (e : Nat)
    (hlen : candidates.length = 5)
    (hbad : searchStringInFileSMB fs bad needle = .error e) :
    (coordinate fs candidates needle).total = 5 ∧
    bad ∉ (coordinate fs candidates needle).matchSet ∧
    (∀ p ∈ candidates,
        (p ∈ (coordinate fs candidates needle).matchSet ↔
          searchStringInFileSMB fs p needle = .ok true)) := by
  have hset : (coordinate fs candidates needle).matchSet =
      candidates.filter (scanVerdict fs needle) := rfl
  refine ⟨?_, ?_, ?_⟩
  · show toInt32 candidates.length = 5
    rw [hlen]
    decide
  · rw [hset]
    intro hmem
    have hv : scanVerdict fs needle bad = true :=
      (List.mem_filter.mp hmem).2
    rw [scanVerdict] at hv
    rw [hbad] at hv
    exact absurd hv (by simp)
  · intro p hp
    rw [hset, List.mem_filter]
    constructor
    · rintro ⟨-, hv⟩
      rw [scanVerdict] at hv
      cases hfs : searchStringInFileSMB fs p needle with
      | error e2 => rw [hfs] at hv; simp at hv
      | ok b => rw [hfs] at hv; simp at hv; rw [hv]
    · intro hok
      refine ⟨hp, ?_⟩
      rw [scanVerdict, hok]

/-- Witness for C5 on the concrete five-candidate store with unreadable
path `"3"`: the total is five, the unreadable file is a non-match, and
remaining membership follows each scan. -/
theorem C5_partial_failure_witness :
    (coordinate wStore wCands [104]).total = 5 ∧
    [51] ∉ (coordinate wStore wCands [104]).matchSet ∧
    (∀ p ∈ wCands,
        (p ∈ (coordinate wStore wCands [104]).matchSet ↔
          searchStringInFileSMB wStore p [104] = .ok true)) :=
  C5_partial_failure wStore wCands [104] [51] 7 (by decide) rfl

/-- C3: a walk entry contributes a candidate path exactly when it is not
a directory and its lowercased name ends in ".log"; concretely, a file
`APP.LOG` is included, a file `app.logx` and a directory `app.log` are
not. -/
theorem C3_discovery_filter :
    (∀ (events : List WalkEvent) (p : List Nat),
        p ∈ findLogFilesSMB events ↔
          ∃ d : DirEntry, WalkEvent.entry d ∈ events ∧ d.isDir = false ∧
            logSuf <:+ toLowerAscii d.name ∧ p = toPresentSep d.path) ∧
    findLogFilesSMB
        [WalkEvent.entry ⟨[65], [65, 80, 80, 46, 76, 79, 71], false⟩,
         WalkEvent.entry ⟨[66], [97, 112, 112, 46, 108, 111, 103, 120], false⟩,
         WalkEvent.entry ⟨[67], [97, 112, 112, 46, 108, 111, 103], true⟩] =
      [[65]] := by
  constructor
  · intro events p
    unfold findLogFilesSMB
    rw [List.mem_filterMap]
    constructor
    · rintro ⟨ev, hev, hf⟩
      cases ev with
      | entry d =>
          by_cases ht : logFileTest d
          · simp only [if_pos ht, Option.some.injEq] at hf
            simp only [logFileTest, Bool.and_eq_true, Bool.not_eq_true',
              decide_eq_true_eq] at ht
            exact ⟨d, hev, ht.1, ht.2, hf.symm⟩
          · simp [ht] at hf
      | fault e => simp at hf
    · rintro ⟨d, hd, hdir, hsuf, rfl⟩
      refine ⟨WalkEvent.entry d, hd, ?_⟩
      have ht : logFileTest d = true := by
        simp [logFileTest, hdir, hsuf]
      simp [ht]
  · decide

/-- C6: the path a scan or a fetch hands to the store's open call is
normalized to the forward-slash convention (no backslash survives, and
re-normalizing is the identity on the observable behavior), while every
discovered candidate path is normalized to the backslash presentation
convention (no forward slash survives). -/
theorem C6_path_normalization :
    (∀ p : List Nat, 92 ∉ toStoreSep p) ∧
    (∀ (fs : List Nat → Except Nat (List Nat)) (p s : List Nat),
        searchStringInFileSMB fs p s =
          searchStringInFileSMB fs (toStoreSep p) s) ∧
    (∀ (fs : List Nat → Except Nat (List Nat)) (remote localPath : List Nat),
        fetchFileSMB fs remote localPath =
          fetchFileSMB fs (toStoreSep remote) localPath) ∧
    (∀ events : List WalkEvent, ∀ q ∈ findLogFilesSMB events, 47 ∉ q) := by
  have hnb : ∀ p : List Nat, 92 ∉ toStoreSep p := by
    intro p hmem
    rw [toStoreSep, List.mem_map] at hmem
    obtain ⟨a, -, ha⟩ := hmem
    by_cases h92 : a = 92 <;> simp [h92] at ha
  have hidem : ∀ p : List Nat, toStoreSep (toStoreSep p) = toStoreSep p := by
    intro p
    simp only [toStoreSep, List.map_map]
    congr 1
    funext b
    by_cases hb : b = 92 <;> simp [hb]
  refine ⟨hnb, ?_, ?_, ?_⟩
  · intro fs p s
    unfold searchStringInFileSMB
    rw [hidem]
  · intro fs remote localPath
    unfold fetchFileSMB
    rw [hidem]
  · intro events q hq
    rw [findLogFilesSMB, List.mem_filterMap] at hq
    obtain ⟨ev, -, hf⟩ := hq
    cases ev with
    | entry d =>
        by_cases ht : logFileTest d
        · simp only [if_pos ht, Option.some.injEq] at hf
          subst hf
          intro hmem
          rw [toPresentSep, List.mem_map] at hmem
          obtain ⟨a, -, ha⟩ := hmem
          by_cases h47 : a = 47 <;> simp [h47] at ha
        · simp [ht] at hf
    | fault e => simp at hf

theorem takeWhile_append_all {p : Nat → Bool} :
    ∀ {l l' : List Nat}, (∀ a ∈ l, p a = true) →
      (l ++ l').takeWhile p = l ++ l'.takeWhile p := by
  intro l l' h
  induction l with
  | nil => simp
  | cons a t ih =>
      have ha : p a = true := h a (by simp)
      have ht : ∀ x ∈ t, p x = true := fun x hx => h x (by simp [hx])
      simp [List.takeWhile_cons, ha, ih ht]

/-- C7: a successful fetch of a non-empty remote path writes exactly one
local file, named `filepath.Base` of the remote path; `filepath.Base`
returns the final path segment (the suffix after the last separator),
and whenever the remote path has any non-separator byte that name is
separator-free, hence a relative name created in the working
directory. -/
theorem C7_fetch_local_name (fs : List Nat → Except Nat (List Nat))
    (p c : List Nat) (hne : p ≠ []) (hok : fs (toStoreSep p) = .ok c) :
    mainFetchStep fs p = some (.ok c.length, [(filepathBase p, c)]) ∧
    (∀ d nm : List Nat, nm ≠ [] → (∀ b ∈ nm, isSep b = false) →
        filepathBase (d ++ 92 :: nm) = nm) ∧
    (p.any (fun x => !isSep x) = true →
        ∀ b ∈ filepathBase p, isSep b = false) := by
  refine ⟨?_, ?_, ?_⟩
  · rw [mainFetchStep, if_neg (by simpa [List.isEmpty_iff] using hne)]
    rw [fetchFileSMB, hok]
  · intro d nm hnm hsep
    have hrev : nm.reverse ≠ [] := by simpa using hnm
    obtain ⟨a, t, hat⟩ := List.exists_cons_of_ne_nil hrev
    have hpne : (d ++ 92 :: nm) ≠ [] := by simp
    have ha : isSep a = false := by
      apply hsep
      rw [← List.mem_reverse, hat]
      simp
    have key : (d ++ 92 :: nm).reverse.dropWhile isSep =
        nm.reverse ++ 92 :: d.reverse := by
      have h1 : (d ++ 92 :: nm).reverse = nm.reverse ++ 92 :: d.reverse := by
        simp
      rw [h1, hat, List.cons_append, List.dropWhile_cons, ha]
      simp
    have hall : ∀ b ∈ nm.reverse, (fun x => !isSep x) b = true := by
      intro b hb
      rw [List.mem_reverse] at hb
      simp [hsep b hb]
    have htw : (nm.reverse ++ 92 :: d.reverse).takeWhile
        (fun b => !isSep b) = nm.reverse := by
      rw [takeWhile_append_all hall, List.takeWhile_cons]
      simp [isSep]
    have hqne : nm.reverse ++ 92 :: d.reverse ≠ [] := by simp
    simp only [filepathBase, if_neg hpne, key, if_neg hqne, htw,
      List.reverse_reverse]
  · intro hany b hb
    have hpne2 : p ≠ [] := by
      intro h
      subst h
      simp at hany
    have hq : p.reverse.dropWhile isSep ≠ [] := by
      rw [ne_eq, List.dropWhile_eq_nil_iff]
      push_neg
      obtain ⟨x, hx, hxs⟩ := List.any_eq_true.mp hany
      exact ⟨x, by simpa using hx, by simpa using hxs⟩
    simp only [filepathBase, if_neg hpne2, if_neg hq] at hb
    rw [List.mem_reverse] at hb
    have := List.mem_takeWhile_imp hb
    simpa using this

/-- Witness for C7: fetching remote path `"d\f"` from a store holding
two bytes writes one local file named `"f"`. -/
theorem C7_fetch_local_name_witness :
    mainFetchStep (fun _ => .ok [1, 2]) [100, 92, 102] =
      some (.ok 2, [(filepathBase [100, 92, 102], [1, 2])]) ∧
    filepathBase ([100] ++ 92 :: [102]) = [102] := by
  have h := C7_fetch_local_name (fun _ => .ok [1, 2]) [100, 92, 102]
    [1, 2] (by decide) rfl
  exact ⟨h.1, h.2.1 [100] [102] (by decide) (by decide)⟩

/-- C9: when opening the remote file fails, the fetch returns that error
and writes nothing locally — the local destination is only created after
a successful remote open. -/
theorem C9_fetch_open_error (fs : List Nat → Except Nat (List Nat))
    (p localPath : List Nat) (e : Nat) (h : fs (toStoreSep p) = .error e) :
    fetchFileSMB fs p localPath = (.error e, []) := by
  rw [fetchFileSMB, h]

/-- Witness for C9: a store that always fails to open makes the fetch
return the open error with no local file written. -/
theorem C9_fetch_open_error_witness :
    fetchFileSMB (fun _ => .error 3) [97] [97] = (.error 3, []) :=
  C9_fetch_open_error (fun _ => .error 3) [97] [97] 3 rfl

/-- Witness for C3: the file `APP.LOG` (path `"A"`) is discovered. -/
theorem C3_discovery_filter_witness :
    [65] ∈ findLogFilesSMB
      [WalkEvent.entry ⟨[65], [65, 80, 80, 46, 76, 79, 71], false⟩] := by
  rw [C3_discovery_filter.1
    [WalkEvent.entry ⟨[65], [65, 80, 80, 46, 76, 79, 71], false⟩] [65]]
  exact ⟨⟨[65], [65, 80, 80, 46, 76, 79, 71], false⟩, by decide, rfl,
    by decide, by decide⟩

/-- Witness for C6: a backslash-presented path loses its backslash under
store normalization and scans identically to its normalized form, and a
discovered slash path is presented without slashes. -/
theorem C6_path_normalization_witness :
    92 ∉ toStoreSep [92, 97] ∧
    searchStringInFileSMB (fun _ => .ok []) [92, 97] [] =
      searchStringInFileSMB (fun _ => .ok []) (toStoreSep [92, 97]) [] ∧
    47 ∉ ([92, 97, 46, 108, 111, 103] : List Nat) :=
  ⟨C6_path_normalization.1 [92, 97],
   C6_path_normalization.2.1 (fun _ => .ok []) [92, 97] [],
   C6_path_normalization.2.2.2
     [WalkEvent.entry ⟨[47, 97, 46, 108, 111, 103],
        [97, 46, 108, 111, 103], false⟩]
     [92, 97, 46, 108, 111, 103] (by decide)⟩

/-- Witness for C10: a one-line file matches the empty needle, the empty
file yields no lines. -/
theorem C10_empty_needle_witness :
    searchContent [104, 10] [] = !(goLines [104, 10]).isEmpty ∧
    (goLines ([] : List Nat)).isEmpty = ([] : List Nat).isEmpty :=
  ⟨C10_empty_needle.1 [104, 10], C10_empty_needle.2 []⟩

end SmbTool
